import Mathlib

/-!
Verification of the batgizmo native signal pipeline (nativeusb.cpp, pipeline.cpp).

The C++ sources are shallowly embedded: machine integers become ℤ with explicit
wrap-around where the source performs a narrowing cast, C integer division and
arithmetic right shift become `Int.div` / `Int.fdiv`, and double-precision
floating point quantities are idealised as ℝ (or, where the computation is
exactly representable at the magnitudes the program uses, as ℚ/ℕ).  Each model
definition is annotated with the source function and lines it embeds.
-/

/-! ## Shared machine-arithmetic helpers -/

/-- Wrap an integer to the `int16_t` range, modelling a C narrowing cast to
`data_t` (aka `int16_t`). -/
def toInt16 (z : ℤ) : ℤ := (z + 32768) % 65536 - 32768

/-- Wrap an integer to the `int32_t` range, modelling a C narrowing cast to
`int32_t`. -/
def toInt32 (z : ℤ) : ℤ := (z + 2 ^ 31) % 2 ^ 32 - 2 ^ 31

/-- `CANARY_DATA_VALUE` is `(data_t) 0xFACE` (nativeusb.cpp line 102), i.e. the
16-bit pattern 0xFACE reinterpreted as a signed 16-bit value. -/
def canaryData : ℤ := toInt16 64206

/-! ## C1 — URB submission accounting (nativeusb.cpp, `stream`)

The capture loop submits URBs with `ioctl(USBDEVFS_SUBMITURB)`.  A submission
attempt either succeeds (`ok`), fails with `EINTR` (retried), or fails with
another errno (`err`).  `submitOnce` embeds the initial-submission retry loop
(lines 309-312): note that `balls_in_the_air++` sits INSIDE the do/while, so it
runs once per attempt.  `recycleSubmit` embeds the recycle retry loop (lines
421-425), where the increment is guarded by `ret == 0`. -/

inductive SubmitOutcome where
  | ok
  | eintr
  | err
  deriving DecidableEq, Repr

/-- Initial submission of one slot (nativeusb.cpp lines 309-312):
`do { ret = ioctl(SUBMITURB); balls_in_the_air++; } while (ret < 0 && errno == EINTR)`.
The trace lists the outcome of each successive `ioctl` attempt; the result is
the final `balls_in_the_air` value and the final `ret` (or `none` if the trace
is exhausted while still retrying). -/
def submitOnce : List SubmitOutcome → ℤ → ℤ × Option SubmitOutcome
  | [], b => (b, none)
  | r :: rs, b =>
    if r = SubmitOutcome.eintr then submitOnce rs (b + 1) else (b + 1, some r)

/-- Re-submission of a drained slot (nativeusb.cpp lines 421-425):
`do { ret = ioctl(SUBMITURB, req); if (ret == 0) balls_in_the_air++; } while (ret < 0 && errno == EINTR)`. -/
def recycleSubmit : List SubmitOutcome → ℤ → ℤ × Option SubmitOutcome
  | [], b => (b, none)
  | r :: rs, b =>
    let b2 := if r = SubmitOutcome.ok then b + 1 else b
    if r = SubmitOutcome.eintr then recycleSubmit rs b2 else (b2, some r)

/-- Number of attempts in a trace that actually submitted a URB. -/
def countSuccess : List SubmitOutcome → ℕ
  | [] => 0
  | r :: rs => (if r = SubmitOutcome.ok then 1 else 0) + countSuccess rs

/-! ## C2 — decimation factor (nativeusb.cpp, `stream` lines 241-246)

`s_decimation_factor = lround((double) sample_rate / TARGET_AUDIO_OUT_RATE);
 if (s_decimation_factor == 0) s_decimation_factor = 1;
 s_audio_out_rate = sample_rate / s_decimation_factor;`

For positive integers `r`, `t` with the program's magnitudes (rates below 2^32
against `t = 48000`), the double quotient `r / t` is within one ulp of the
rational value and never within one ulp of a half-integer tie other than an
exact tie, so `lround` (round half away from zero, here half up) coincides with
the exact rational rounding `(2r + t) / (2t)` in ℕ. -/

/-- Round `num / den` to the nearest natural, halves rounding up — the exact
value of `lround((double) num / den)` for the program's magnitudes. -/
def roundHalfUp (num den : ℕ) : ℕ := (2 * num + den) / (2 * den)

/-- `s_decimation_factor` as computed at capture start (lines 241-243). -/
def decimationFactor (r : ℕ) : ℕ :=
  let v := roundHalfUp r 48000
  if v = 0 then 1 else v

/-- `s_audio_out_rate` (line 245): C integer division. -/
def audioOutRate (r : ℕ) : ℕ := r / decimationFactor r

/-! ## C3 — stereo channel merge (nativeusb.cpp, `stream` lines 373-380)

`for (int i = 0, j = 0; i < actual_samples_read; i += 1, j += 2)
   pData[i] = (short) (((int) pData[j] + (int) pData[j + 1]) >> 1);
 actual_samples_read >>= 1;`

The loop walks consecutive sample pairs writing one merged sample per pair; the
downstream count is halved, so exactly the first `n` merged values are the
stage's output when `2 * n` samples came in.  `>> 1` on an `int` is an
arithmetic shift, i.e. division by 2 rounding toward negative infinity
(`Int.fdiv`), and the `(short)` cast narrows to 16 bits. -/

def mergeStereo : List ℤ → List ℤ
  | a :: b :: rest => toInt16 (Int.fdiv (a + b) 2) :: mergeStereo rest
  | _ => []

/-- The merge the spec's words describe: arithmetic mean rounded toward zero
(C truncating division).  Used to compare the spec against the code. -/
def specMeanTowardZero (a b : ℤ) : ℤ := Int.tdiv (a + b) 2

/-! ## C4 — ring export (nativeusb.cpp, `copyURBBufferData` lines 504-542)

Samples are copied from a source run into a caller-provided circular buffer in
up to two parts: `part1Count = min(k, size - offset)` samples at `offset`, then
if samples remain, `part2Count = min(remaining, size)` samples at the start of
the buffer; the return value is `k - (remaining - part2Count)`. -/

/-- Overwrite `vals` into `dst` starting at position `pos` (no wrapping; the
callers' counts keep the writes in bounds, mirroring raw pointer arithmetic). -/
def writeAt : List ℤ → ℕ → List ℤ → List ℤ
  | [], _, _ => []
  | d :: ds, p + 1, vs => d :: writeAt ds p vs
  | _ :: ds, 0, v :: vs => v :: writeAt ds 0 vs
  | d :: ds, 0, [] => d :: ds

/-- `Java_org_batgizmo_app_pipeline_NativeUSB_copyURBBufferData`: returns the
updated target buffer and the copied-count return value.  `src` holds the
`source_samples` samples at the source pointer, `dst` the target array,
`offset` / `size` the target offset and capacity. -/
def copyURBBufferData (src dst : List ℤ) (offset size : ℕ) : List ℤ × ℕ :=
  let k := src.length
  let part1Count := min k (size - offset)
  let d1 := writeAt dst offset (src.take part1Count)
  let rem := k - part1Count
  if 0 < rem then
    let part2Count := min rem size
    (writeAt d1 0 ((src.drop part1Count).take part2Count), k - (rem - part2Count))
  else (d1, k - rem)

/-! ## C8 — colour-map index clamp (pipeline.cpp, `doColourMapping` lines 439-451)

`value = (value - offset) * multiplier; int_value = (int) value;
 if (int_value > s_colourMapDataSize - 1) int_value = s_colourMapDataSize - 1;
 else if (int_value < 0) int_value = 0;`

The float arithmetic is idealised over ℚ; the `(int)` cast truncates toward
zero. -/

/-- Truncation toward zero of a rational, modelling a C float-to-int cast. -/
def qtrunc (q : ℚ) : ℤ := Int.tdiv q.num q.den

/-- The clamped colour-table index computed per cell by `doColourMapping`. -/
def colourIndexOf (value offset multiplier : ℚ) (size : ℕ) : ℤ :=
  if (size : ℤ) - 1 < qtrunc ((value - offset) * multiplier) then (size : ℤ) - 1
  else if qtrunc ((value - offset) * multiplier) < 0 then 0
  else qtrunc ((value - offset) * multiplier)

/-! ## C9 — one-shot colour-map load (pipeline.cpp, `nativeInitialize` lines 49-86)

`s_amplitude_graph_colour = amplitude_graph_colour;
 if (s_already_initialized) { s_already_initialized = true; return rc; }
 ... delete old copy, copy the passed table ...`

Note the guard: `s_already_initialized` is assigned `true` only inside the
branch that requires it to already be `true`; no path ever changes it from
`false` to `true`. -/

structure UIInit where
  already : Bool
  colourMap : List ℤ
  graphColour : ℤ
  deriving DecidableEq, Repr

/-- One call to `nativeInitialize` with a colour table and graph colour;
returns the new module state and the JNI return code. -/
def nativeInitialize (st : UIInit) (table : List ℤ) (graph : ℤ) : UIInit × ℤ :=
  let stg := { st with graphColour := graph }
  if stg.already then ({ stg with already := true }, 0)
  else ({ stg with colourMap := table }, 0)

/-- Module state before the first `nativeInitialize` call (static zero
initialisation). -/
def uiInit0 : UIInit := ⟨false, [], 0⟩

/-! ## C5 — windowed FFT, dB conversion and trigger (pipeline.cpp, `doFft` lines 226-274)

The per-bucket computation of `doFft` is embedded over ℝ (the source uses
single/double floats).  The real-input FFT itself is the vendored third-party
kissfft (`kiss_fftr`), whose source is not part of this repository's sources;
`dftRe`/`dftIm` are modelled from the spec: "run a real-input FFT per window
into a complex scratch buffer", i.e. bucket `k` of the discrete Fourier
transform of the window. -/

/-- Modelled from the spec: real part of bucket `k` of the real-input FFT
(`kiss_fftr`, vendored source not under src/). -/
noncomputable def dftRe (wsize : ℕ) (w : ℕ → ℝ) (k : ℕ) : ℝ :=
  ∑ j in Finset.range wsize, w j * Real.cos (2 * Real.pi * (j : ℝ) * (k : ℝ) / (wsize : ℝ))

/-- Modelled from the spec: imaginary part of bucket `k` of the real-input FFT
(`kiss_fftr`, vendored source not under src/). -/
noncomputable def dftIm (wsize : ℕ) (w : ℕ → ℝ) (k : ℕ) : ℝ :=
  -∑ j in Finset.range wsize, w j * Real.sin (2 * Real.pi * (j : ℝ) * (k : ℝ) / (wsize : ℝ))

/-- `s_dB_factor = 10.0f / log2(10.0f)` (pipeline.cpp line 194). -/
noncomputable def dBFactor : ℝ := 10 / Real.logb 2 10

/-- Squared magnitude of bucket `k`, normalised by `(2 / window_size)^2`
(pipeline.cpp lines 226-243). -/
noncomputable def magSqBucket (wsize : ℕ) (w : ℕ → ℝ) (k : ℕ) : ℝ :=
  (dftRe wsize w k ^ 2 + dftIm wsize w k ^ 2) * (2 / (wsize : ℝ)) ^ 2

/-- dB conversion with floor clamp (pipeline.cpp lines 259-262):
`db_value = minDB; if (mag_squared > 0.0) db_value = s_dB_factor * log2(mag_squared)`. -/
noncomputable def dbOf (minDB m : ℝ) : ℝ :=
  if 0 < m then dBFactor * Real.logb 2 m else minDB

/-- The dB value `doFft` writes for bucket `k` of a window. -/
noncomputable def dbBucket (wsize : ℕ) (minDB : ℝ) (w : ℕ → ℝ) (k : ℕ) : ℝ :=
  dbOf minDB (magSqBucket wsize w k)

/-- An all-zero (pure silence) batch of windows. -/
def silenceWindows : ℕ → ℕ → ℝ := fun _ _ => 0

/-- The trigger flag computed by `doFft` (pipeline.cpp lines 267-273): set iff
some bucket `k` with `min_trigger_bucket ≤ k ≤ max_trigger_bucket` in some
window has `db_value ≥ trigger_threshold`.  Bucket count is `wsize / 2 + 1`
(pipeline.cpp line 152). -/
def TriggeredP (numW wsize : ℕ) (windows : ℕ → ℕ → ℝ) (minT maxT : ℤ)
    (threshold minDB : ℝ) : Prop :=
  ∃ wi, wi < numW ∧ ∃ k, k < wsize / 2 + 1 ∧ minT ≤ (k : ℤ) ∧ (k : ℤ) ≤ maxT ∧
    threshold ≤ dbBucket wsize minDB (windows wi) k

/-! ## C6 — cascaded one-pole IIR anti-alias filter (nativeusb.cpp, `write_audio_output`
lines 763-771)

`int64_t filtered = mixed;
 for (int order = 0; order < DOWNSAMPLING_AA_STAGES; order++) {
   filtered = (int64_t) coeff * filtered + (int64_t) ((1LL << 31) - coeff) * prev[order];
   filtered >>= 31;
   prev[order] = (int32_t) filtered;
 }`

`>> 31` on a 64-bit signed value is an arithmetic shift (floor division by
2^31), and the stage state is stored through a narrowing `int32_t` cast while
the un-narrowed value feeds the next stage.  `DOWNSAMPLING_AA_STAGES = 4`. -/

/-- One filter stage: `(coeff * input + (2^31 - coeff) * state) >> 31`. -/
def stageShift (c m s : ℤ) : ℤ := Int.fdiv (c * m + (2 ^ 31 - c) * s) (2 ^ 31)

/-- One sample through the whole cascade: the list holds the per-stage states
`prev[order]`; the un-narrowed `filtered` value is passed to the next stage
while `(int32_t) filtered` is stored. -/
def cascadeStep (c : ℤ) : ℤ → List ℤ → List ℤ
  | _, [] => []
  | m, s :: rest =>
    toInt32 (stageShift c m s) :: cascadeStep c (stageShift c m s) rest

/-- Filter state after `n` samples of constant input `x`, starting from the
state `st`. -/
def aaFrom (c x : ℤ) (st : List ℤ) : ℕ → List ℤ
  | 0 => st
  | n + 1 => cascadeStep c x (aaFrom c x st n)

/-- Filter state after `n` samples of constant input `x` from the reset state
(`downsampling_filter_reset` zeroes all four stages). -/
def aaRun (c x : ℤ) (n : ℕ) : List ℤ := aaFrom c x (List.replicate 4 0) n

/-- The cascade output after sample `n`: the last stage's state. -/
def aaOutput (c x : ℤ) (n : ℕ) : ℤ := (aaRun c x n).getLastD 0

/-- `f` converges to `v`: eventually constantly equal to `v` (for an
integer-valued sequence, convergence and eventual equality coincide). -/
def convergesTo (f : ℕ → ℤ) (v : ℤ) : Prop := ∃ N, ∀ n, N ≤ n → f n = v

/-- The cascade's output sequence for constant input `1` with coefficient
`2^30` (a mid-range value of the open interval `(0, 2^31)` the coefficient is
drawn from). -/
def constantOneResponse : ℕ → ℤ := aaOutput (2 ^ 30) 1

/-- Head-stage trajectory: the stored state of the first stage under constant
input `x` (proof infrastructure for the cascade decomposition). -/
def stageTraj (c x s0 : ℤ) : ℕ → ℤ
  | 0 => s0
  | n + 1 => toInt32 (stageShift c x (stageTraj c x s0 n))

/-- Tail-stages trajectory: the states of the remaining stages, driven by the
head stage's un-narrowed output (proof infrastructure). -/
def tailTraj (c x s0 : ℤ) (rest0 : List ℤ) : ℕ → List ℤ
  | 0 => rest0
  | n + 1 => cascadeStep c (stageShift c x (stageTraj c x s0 n)) (tailTraj c x s0 rest0 n)

/-! ## C7 / C10 — heterodyne audio session state (nativeusb.cpp, `startAudio`
lines 600-650, `setHeterodyne` lines 833-840, `write_audio_output` lines 792-799)

The module state relevant to the reference oscillator: `s_reference_len`,
`s_reference_data` (a static array, modelled as its contents function),
`s_heterodyne1_kHz`, `s_heterodyne2_kHz`, `s_audio_boost_shift` and the two
phase indices. -/

structure AudioState where
  reference_len : ℕ
  reference_data : ℕ → ℤ
  heterodyne1 : ℤ
  heterodyne2 : ℤ
  boost : ℤ
  ref1_index : ℤ
  ref2_index : ℤ

/-- Truncation toward zero of a real, modelling a C double-to-integer cast. -/
noncomputable def realTrunc (r : ℝ) : ℤ := if 0 ≤ r then ⌊r⌋ else ⌈r⌉

/-- Entry `i` of the generated reference table (nativeusb.cpp lines 631-636):
`s_reference_data[i] = cos(i * pi2 / n) * 0x7FFE` with the double literal
`pi2 = 3.1415927 * 2` idealised as `2π` and the implicit `int16_t` conversion
truncating toward zero. -/
noncomputable def refEntry (n i : ℕ) : ℤ :=
  realTrunc (Real.cos ((i : ℝ) * (2 * Real.pi) / (n : ℝ)) * 32766)

/-- `Java_org_batgizmo_app_pipeline_NativeUSB_startAudio` (lines 600-650):
clamp `n` to `MAX_REFERENCE_LEN = 512`, reject heterodyne tones above `n`,
rebuild the reference table only when `n` differs from the cached length
(writing entries `0..n-1` and the canary at `n`), store the tone/boost
parameters, reset both phase indices, and report the audio-output start
outcome `audioOk` (external `AAudio` call).  Returns the success flag and the
resulting module state. -/
noncomputable def startAudio (st : AudioState) (h1 h2 boostShift : ℤ)
    (samplesPerMs : ℕ) (audioOk : Bool) : Bool × AudioState :=
  let n := min samplesPerMs 512
  if (n : ℤ) < h1 ∨ (n : ℤ) < h2 then (false, st)
  else
    let st1 := if n = st.reference_len then st else
      { st with reference_len := n,
                reference_data := fun i =>
                  if i < n then refEntry n i
                  else if i = n then canaryData
                  else st.reference_data i }
    (audioOk,
      { st1 with heterodyne1 := h1, heterodyne2 := h2, boost := boostShift,
                 ref1_index := 0, ref2_index := 0 })

/-- `Java_org_batgizmo_app_pipeline_NativeUSB_setHeterodyne` (lines 833-840):
stores both tone steps unconditionally — no lock, no validation, no failure
path. -/
def setHeterodyne (st : AudioState) (h1 h2 : ℤ) : AudioState :=
  { st with heterodyne1 := h1, heterodyne2 := h2 }

/-- Per-sample phase-index advance (nativeusb.cpp lines 792-799):
`idx += step; if (idx >= len) idx -= len;`. -/
def advanceIndex (idx step len : ℤ) : ℤ :=
  if len ≤ idx + step then idx + step - len else idx + step

/-- Well-formedness of the cached reference table: entries `0..len-1` hold the
cosine table for `len`, with the canary just past the end. -/
def TableWF (st : AudioState) : Prop :=
  (∀ i < st.reference_len, st.reference_data i = refEntry st.reference_len i) ∧
  st.reference_data st.reference_len = canaryData

/-- Module state at process start: static zero initialisation. -/
def audioState0 : AudioState := ⟨0, fun _ => 0, 0, 0, 0, 0, 0⟩

/-! ## Helper lemmas -/

theorem toInt16_eq_self {z : ℤ} (h1 : -32768 ≤ z) (h2 : z < 32768) : toInt16 z = z := by
  have hm : (z + 32768) % 65536 = z + 32768 := Int.emod_eq_of_lt (by omega) (by omega)
  unfold toInt16
  omega

theorem fdiv_two_eq_ediv (z : ℤ) : Int.fdiv z 2 = z / 2 :=
  Int.fdiv_eq_ediv z (by norm_num)

theorem getD_take (l : List ℤ) (m i : ℕ) (h : i < m) :
    (l.take m).getD i 0 = l.getD i 0 := by
  induction l generalizing m i with
  | nil => simp
  | cons x xs ih =>
    cases m with
    | zero => omega
    | succ m =>
      cases i with
      | zero => simp
      | succ i => simpa using ih m i (by omega)

theorem getD_drop (l : List ℤ) (m i : ℕ) :
    (l.drop m).getD i 0 = l.getD (m + i) 0 := by
  induction l generalizing m with
  | nil => simp
  | cons x xs ih =>
    cases m with
    | zero => simp
    | succ m =>
      have : m + 1 + i = (m + i) + 1 := by omega
      simp [this, ih m]

theorem writeAt_length (d : List ℤ) (p : ℕ) (vs : List ℤ) :
    (writeAt d p vs).length = d.length := by
  induction d generalizing p vs with
  | nil => cases p <;> cases vs <;> rfl
  | cons x ds ih =>
    cases p with
    | zero =>
      cases vs with
      | nil => rfl
      | cons v vt => simpa [writeAt] using ih 0 vt
    | succ q => simpa [writeAt] using ih q vs

theorem writeAt_getD_lt (d : List ℤ) (p : ℕ) (vs : List ℤ) (i : ℕ) (h : i < p) :
    (writeAt d p vs).getD i 0 = d.getD i 0 := by
  induction d generalizing p vs i with
  | nil => cases p <;> cases vs <;> rfl
  | cons x ds ih =>
    cases p with
    | zero => omega
    | succ q =>
      cases i with
      | zero => simp [writeAt]
      | succ j => simpa [writeAt] using ih q vs j (by omega)

theorem writeAt_getD_ge (d : List ℤ) (p : ℕ) (vs : List ℤ) (i : ℕ)
    (h : p + vs.length ≤ i) : (writeAt d p vs).getD i 0 = d.getD i 0 := by
  induction d generalizing p vs i with
  | nil => cases p <;> cases vs <;> rfl
  | cons x ds ih =>
    cases p with
    | zero =>
      cases vs with
      | nil => rfl
      | cons v vt =>
        cases i with
        | zero => simp at h
        | succ j => simpa [writeAt] using ih 0 vt j (by simp at h; omega)
    | succ q =>
      cases i with
      | zero => omega
      | succ j => simpa [writeAt] using ih q vs j (by omega)

theorem writeAt_getD_in (d : List ℤ) (p : ℕ) (vs : List ℤ) (i : ℕ)
    (hi : i < vs.length) (hfit : p + vs.length ≤ d.length) :
    (writeAt d p vs).getD (p + i) 0 = vs.getD i 0 := by
  induction d generalizing p vs i with
  | nil =>
    have h0 : p + vs.length ≤ 0 := by simpa using hfit
    omega
  | cons x ds ih =>
    cases p with
    | zero =>
      cases vs with
      | nil => simp at hi
      | cons v vt =>
        cases i with
        | zero => simp [writeAt]
        | succ j =>
          have := ih 0 vt j (by simp at hi; omega) (by simp at hfit ⊢; omega)
          simpa [writeAt] using this
    | succ q =>
      have hq : q + 1 + i = (q + i) + 1 := by omega
      have := ih q vs i hi (by simp at hfit; omega)
      simpa [writeAt, hq] using this

/-! ## C1 -/

/-- Claim C1: the capture loop's outstanding-URB count is claimed to be
incremented only on a successful submission.  The initial-submission retry loop
(lines 308-320) violates this: if the first `SUBMITURB` attempt for a slot
fails with `EINTR` and the retry succeeds, `balls_in_the_air` has been
incremented twice although only one URB was submitted.  The recycle loop
(lines 421-425) counts the same trace correctly, confirming the intent. -/
theorem submitOnce_overcounts_on_eintr :
    (submitOnce [SubmitOutcome.eintr, SubmitOutcome.ok] 0).1 = 2 ∧
    countSuccess [SubmitOutcome.eintr, SubmitOutcome.ok] = 1 ∧
    (recycleSubmit [SubmitOutcome.eintr, SubmitOutcome.ok] 0).1 = 1 ∧
    (submitOnce [SubmitOutcome.eintr, SubmitOutcome.ok] 0).2 = some SubmitOutcome.ok := by
  decide

/-! ## C2 -/

/-- Claim C2: for every input rate `r` the decimation factor equals
`max 1 (round (r / 48000))` and the output audio rate is `r` divided by the
decimation factor. -/
theorem decimationFactor_spec (r : ℕ) :
    decimationFactor r = max 1 (roundHalfUp r 48000) ∧
    audioOutRate r = r / decimationFactor r := by
  constructor
  · unfold decimationFactor
    by_cases h : roundHalfUp r 48000 = 0
    · simp [h]
    · simp [h]
      omega
  · rfl

/-! ## C9 -/

/-- Claim C9: the colour map is claimed to be loaded once and left unchanged by
subsequent calls.  In the code the initialised flag is only ever assigned
inside the branch requiring it to be already set, so it stays `false` and every
call re-copies: calling with table `[1,2,3]` and then `[4,5,6]` leaves
`[4,5,6]` stored, not the first table. -/
theorem nativeInitialize_recopies :
    ((nativeInitialize (nativeInitialize uiInit0 [1, 2, 3] 0).1 [4, 5, 6] 0).1).colourMap
      = [4, 5, 6] ∧
    ((nativeInitialize (nativeInitialize uiInit0 [1, 2, 3] 0).1 [4, 5, 6] 0).1).already
      = false ∧
    ([4, 5, 6] : List ℤ) ≠ [1, 2, 3] := by
  decide

/-! ## C3 -/

/-- Claim C3 (counterexample): the merge is claimed to round the pair mean
toward zero.  On the pair `(1, -2)` the code's arithmetic right shift gives
`-1` (floor of `-1/2`), while rounding toward zero would give `0`. -/
theorem mergeStereo_not_toward_zero :
    mergeStereo [1, -2] = [-1] ∧ specMeanTowardZero 1 (-2) = 0 ∧
    mergeStereo [1, -2] ≠ [specMeanTowardZero 1 (-2)] := by
  decide

/-- Claim C3 (amended): for a run of `n` 16-bit stereo sample pairs the merged
output has exactly `n` samples, each the arithmetic mean of its pair rounded
toward negative infinity (arithmetic right shift); in particular `(100, 300)`
merges to `200`. -/
theorem mergeStereo_halves (l : List ℤ) (n : ℕ) (hlen : l.length = 2 * n)
    (hrange : ∀ x ∈ l, -32768 ≤ x ∧ x ≤ 32767) :
    (mergeStereo l).length = n ∧
    ∀ i, i < n → (mergeStereo l).getD i 0 =
      Int.fdiv (l.getD (2 * i) 0 + l.getD (2 * i + 1) 0) 2 := by
  induction n generalizing l with
  | zero =>
    have hnil : l = [] := List.length_eq_zero.mp (by omega)
    subst hnil
    exact ⟨rfl, fun i hi => absurd hi (Nat.not_lt_zero i)⟩
  | succ n ih =>
    match l, hlen with
    | a :: b :: rest, hlen =>
      have hrest : rest.length = 2 * n := by simp at hlen; omega
      have hra := hrange a (by simp)
      have hrb := hrange b (by simp)
      have hrr : ∀ x ∈ rest, -32768 ≤ x ∧ x ≤ 32767 := fun x hx => hrange x (by simp [hx])
      obtain ⟨ihl, ihg⟩ := ih rest hrest hrr
      have hlow : (-65536 : ℤ) / 2 = -32768 := by decide
      have hhigh : (65534 : ℤ) / 2 = 32767 := by decide
      have hd1 : -32768 ≤ Int.fdiv (a + b) 2 := by
        rw [fdiv_two_eq_ediv]
        have := Int.ediv_le_ediv (by norm_num : (0 : ℤ) < 2)
          (show (-65536 : ℤ) ≤ a + b by omega)
        omega
      have hd2 : Int.fdiv (a + b) 2 < 32768 := by
        rw [fdiv_two_eq_ediv]
        have := Int.ediv_le_ediv (by norm_num : (0 : ℤ) < 2)
          (show a + b ≤ (65534 : ℤ) by omega)
        omega
      have hcast : toInt16 (Int.fdiv (a + b) 2) = Int.fdiv (a + b) 2 :=
        toInt16_eq_self hd1 hd2
      refine ⟨by simpa [mergeStereo] using ihl, ?_⟩
      intro i hi
      cases i with
      | zero => simp [mergeStereo, hcast]
      | succ j =>
        have e1 : 2 * (j + 1) = 2 * j + 1 + 1 := by ring
        rw [e1]
        simpa [mergeStereo, List.getD_cons_succ] using ihg j (by omega)

/-- Witness for `mergeStereo_halves` at the spec's concrete example: the single
stereo pair `(100, 300)` merges to the single mono sample `200`. -/
theorem mergeStereo_halves_witness :
    (mergeStereo [100, 300]).length = 1 ∧ (mergeStereo [100, 300]).getD 0 0 = 200 := by
  have h := mergeStereo_halves [100, 300] 1 (by decide) (by decide)
  refine ⟨h.1, ?_⟩
  have h0 := h.2 0 (by decide)
  have hv : Int.fdiv (([100, 300] : List ℤ).getD 0 0 + ([100, 300] : List ℤ).getD 1 0) 2
      = 200 := by decide
  rw [h0]
  exact hv

/-! ## C4 -/

/-- Claim C4 (counterexample): exporting `k = 8` samples into a ring of
capacity `cap = 4` at offset `cap - 3 = 1` is claimed to return `cap = 4`; the
code copies 3 samples to the tail, then up to `cap` more to the head, and
returns `7`. -/
theorem copyURB_overlong_count :
    (copyURBBufferData [10, 20, 30, 40, 50, 60, 70, 80] [0, 0, 0, 0] 1 4).2 = 7 ∧
    (copyURBBufferData [10, 20, 30, 40, 50, 60, 70, 80] [0, 0, 0, 0] 1 4).2 ≠ 4 := by
  decide

/-- Claim C4 (amended): copying `k` samples at offset `cap - 3` into a ring of
capacity `cap ≥ 3` returns `min k (cap + 3)`; in particular it returns `k`
whenever `k ≤ cap`, and in that case `min k 3` samples land at the tail and the
remaining `k - 3` at the head.  When `k > cap` the wrapped head copy is
truncated to `cap` samples (revisiting already-written positions), so the
returned count exceeds the capacity instead of being clamped to it. -/
theorem copyURB_spec (src dst : List ℤ) (cap : ℕ) (hcap : 3 ≤ cap)
    (hdst : dst.length = cap) :
    (copyURBBufferData src dst (cap - 3) cap).2 = min src.length (cap + 3) ∧
    (src.length ≤ cap → (copyURBBufferData src dst (cap - 3) cap).2 = src.length) ∧
    (3 ≤ src.length → src.length ≤ cap → ∀ i, i < 3 →
      (copyURBBufferData src dst (cap - 3) cap).1.getD (cap - 3 + i) 0 = src.getD i 0) ∧
    (src.length ≤ cap → ∀ j, 3 + j < src.length →
      (copyURBBufferData src dst (cap - 3) cap).1.getD j 0 = src.getD (3 + j) 0) := by
  have hsp : cap - (cap - 3) = 3 := by omega
  unfold copyURBBufferData
  rw [hsp]
  by_cases hk : 0 < src.length - min src.length 3
  · rw [if_pos hk]
    have hm3 : min src.length 3 = 3 := by omega
    refine ⟨by simp; omega, fun hle => by simp; omega, ?_, ?_⟩
    · -- tail samples, k ≤ cap
      intro h3k hle i hi
      have htk : (src.take (min src.length 3)).length = 3 := by
        simp [hm3]; omega
      have hp2 : min (src.length - min src.length 3) cap = src.length - 3 := by omega
      have hlen1 : (writeAt dst (cap - 3) (src.take (min src.length 3))).length = cap := by
        rw [writeAt_length]; exact hdst
      -- the head copy writes src.length - 3 ≤ cap - 3 entries, so it does not
      -- reach position cap - 3 + i
      have hge : (src.length - min src.length 3) ≤ cap - 3 + i ∨ True := Or.inr trivial
      rw [writeAt_getD_ge _ 0 _ _ (by
        simp [hp2]
        omega)]
      have := writeAt_getD_in dst (cap - 3) (src.take (min src.length 3)) i
        (by omega) (by omega)
      rw [this]
      exact getD_take src (min src.length 3) i (by omega)
    · -- head samples, k ≤ cap
      intro hle j hj
      have hp2 : min (src.length - min src.length 3) cap = src.length - 3 := by omega
      have hlen1 : (writeAt dst (cap - 3) (src.take (min src.length 3))).length = cap := by
        rw [writeAt_length]; exact hdst
      have hin := writeAt_getD_in (writeAt dst (cap - 3) (src.take (min src.length 3))) 0
        (((src.drop (min src.length 3)).take (min (src.length - min src.length 3) cap))) j
        (by simp [hp2]; omega) (by simp [hp2]; omega)
      rw [getD_take _ _ _ (show j < min (src.length - min src.length 3) cap by omega),
        getD_drop, hm3] at hin
      rw [hm3]
      simpa using hin
  · rw [if_neg hk]
    have hm : min src.length 3 = src.length := by omega
    refine ⟨by simp; omega, fun _ => by simp; omega, ?_, ?_⟩
    · intro h3k hle i hi
      have hk3 : src.length = 3 := by omega
      have := writeAt_getD_in dst (cap - 3) (src.take (min src.length 3)) i
        (by simp [hm, hk3]; omega) (by simp [hm, hk3]; omega)
      rw [this]
      exact getD_take src (min src.length 3) i (by omega)
    · intro hle j hj
      omega

/-- Witness for `copyURB_spec`: copying 5 samples at offset 3 into a
capacity-6 ring returns 5, the first sample lands at position 3 (the tail) and
the fourth sample wraps to position 0 (the head). -/
theorem copyURB_spec_witness :
    (copyURBBufferData [1, 2, 3, 4, 5] [0, 0, 0, 0, 0, 0] 3 6).2 = 5 ∧
    (copyURBBufferData [1, 2, 3, 4, 5] [0, 0, 0, 0, 0, 0] 3 6).1.getD 3 0 = 1 ∧
    (copyURBBufferData [1, 2, 3, 4, 5] [0, 0, 0, 0, 0, 0] 3 6).1.getD 0 0 = 4 := by
  have h := copyURB_spec [1, 2, 3, 4, 5] [0, 0, 0, 0, 0, 0] 6 (by norm_num) (by simp)
  refine ⟨by simpa using h.2.1 (by norm_num), ?_, ?_⟩
  · have := h.2.2.1 (by norm_num) (by norm_num) 0 (by norm_num)
    simpa using this
  · have := h.2.2.2 (by norm_num) 0 (by norm_num)
    simpa using this

/-! ## C8 -/

/-- Claim C8: for every dB value, offset and multiplier, if the colour table
has at least one entry then the clamped index lies within `[0, size - 1]`, so
every colour-table lookup during rendering is in bounds. -/
theorem colourIndex_in_bounds (value offset multiplier : ℚ) (size : ℕ)
    (hsize : 1 ≤ size) :
    0 ≤ colourIndexOf value offset multiplier size ∧
    colourIndexOf value offset multiplier size ≤ (size : ℤ) - 1 := by
  have h1 : (1 : ℤ) ≤ (size : ℤ) := by exact_mod_cast hsize
  unfold colourIndexOf
  split_ifs <;> omega

/-- Witness for `colourIndex_in_bounds` at a concrete cell: dB value 50,
offset 10, multiplier 2, a 5-entry table. -/
theorem colourIndex_in_bounds_witness :
    0 ≤ colourIndexOf 50 10 2 5 ∧ colourIndexOf 50 10 2 5 ≤ ((5 : ℕ) : ℤ) - 1 :=
  colourIndex_in_bounds 50 10 2 5 (by norm_num)

/-! ## C5 -/

/-- Claim C5 (counterexample): silence is claimed never to set the trigger
flag, for every trigger range and threshold.  With one window of size 2,
trigger range `[0, 0]`, threshold `-1` and floor `minDB = 0`, every bucket of
the silent spectrum holds the floor value `0 ≥ -1`, so the trigger fires. -/
theorem doFft_silence_triggers :
    TriggeredP 1 2 silenceWindows 0 0 (-1) 0 := by
  refine ⟨0, by norm_num, 0, by norm_num, by norm_num, by norm_num, ?_⟩
  have hz : dbBucket 2 0 (silenceWindows 0) 0 = 0 := by
    simp [dbBucket, dbOf, magSqBucket, dftRe, dftIm, silenceWindows]
  rw [hz]
  norm_num

/-- Claim C5 (amended): for every window count, trigger bucket range and
trigger threshold, running the FFT over all-zero slices writes the configured
floor dB value into every frequency bucket, and the trigger flag is not set
provided the floor value is below the trigger threshold. -/
theorem doFft_silence_spec (numW wsize : ℕ) (minT maxT : ℤ) (threshold minDB : ℝ) :
    (∀ wi k, dbBucket wsize minDB (silenceWindows wi) k = minDB) ∧
    (minDB < threshold →
      ¬ TriggeredP numW wsize silenceWindows minT maxT threshold minDB) := by
  have hz : ∀ wi k, dbBucket wsize minDB (silenceWindows wi) k = minDB := by
    intro wi k
    simp [dbBucket, dbOf, magSqBucket, dftRe, dftIm, silenceWindows]
  refine ⟨hz, ?_⟩
  rintro hlt ⟨wi, -, k, -, -, -, hth⟩
  rw [hz wi k] at hth
  exact absurd hth (not_le.mpr hlt)

/-- Witness for `doFft_silence_spec`: floor `-100` dB, threshold `-1`, one
window of size 2, trigger range `[0, 0]`. -/
theorem doFft_silence_spec_witness :
    dbBucket 2 (-100) (silenceWindows 0) 0 = -100 ∧
    ¬ TriggeredP 1 2 silenceWindows 0 0 (-1) (-100) := by
  have h := doFft_silence_spec 1 2 0 0 (-1) (-100)
  exact ⟨h.1 0 0, h.2 (by norm_num)⟩

/-! ## C7 -/

/-- Claim C7: after `startAudio` succeeds for a session with `s` samples per
millisecond (`1 ≤ s ≤ 512`, the reference array bound), the reference table
holds exactly `s` entries with `table[i] = cos(2π·i/s)` scaled to full
amplitude, the canary sentinel sits just past the last entry, and the table is
rebuilt only when `s` differs from the cached table length — if they agree the
table memory is untouched. -/
theorem startAudio_table_spec (st : AudioState) (h1 h2 b : ℤ) (s : ℕ) (aok : Bool)
    (hs1 : 1 ≤ s) (hs2 : s ≤ 512) (hwf : st.reference_len = s → TableWF st)
    (hsucc : (startAudio st h1 h2 b s aok).1 = true) :
    (startAudio st h1 h2 b s aok).2.reference_len = s ∧
    (∀ i, i < s → (startAudio st h1 h2 b s aok).2.reference_data i = refEntry s i) ∧
    (startAudio st h1 h2 b s aok).2.reference_data s = canaryData ∧
    (st.reference_len = s →
      (startAudio st h1 h2 b s aok).2.reference_data = st.reference_data) := by
  have hn : min s 512 = s := by omega
  simp only [startAudio, hn] at hsucc ⊢
  by_cases hval : (s : ℤ) < h1 ∨ (s : ℤ) < h2
  · rw [if_pos hval] at hsucc
    exact absurd hsucc (by simp)
  · rw [if_neg hval] at hsucc ⊢
    by_cases heq : s = st.reference_len
    · rw [if_pos heq]
      obtain ⟨hentries, hcanary⟩ := hwf heq.symm
      refine ⟨heq.symm, ?_, ?_, fun _ => rfl⟩
      · intro i hi
        have := hentries i (by omega)
        rw [← heq] at this
        exact this
      · rw [← heq] at hcanary
        exact hcanary
    · rw [if_neg heq]
      refine ⟨rfl, ?_, ?_, ?_⟩
      · intro i hi
        simp [hi]
      · simp
      · intro hcontra
        exact absurd hcontra.symm heq

/-- Witness for `startAudio_table_spec`: from the process-start state, a
session with 2 samples per millisecond and both tones at 1 kHz. -/
theorem startAudio_table_spec_witness :
    (startAudio audioState0 1 1 0 2 true).2.reference_len = 2 ∧
    (startAudio audioState0 1 1 0 2 true).2.reference_data 2 = canaryData := by
  have h := startAudio_table_spec audioState0 1 1 0 2 true (by norm_num) (by norm_num)
    (fun hl => absurd hl (by decide)) (by rfl)
  exact ⟨h.1, h.2.2.1⟩

/-! ## C10 -/

/-- Claim C10: `setHeterodyne` always succeeds and stores both tone steps
unchanged with no range validation; `startAudio` by contrast rejects a tone
above the table length `n = min(samples_per_ms, 512)`; and once a step exceeds
the table length, the per-sample advance (`idx += step; if (idx >= len)
idx -= len`) no longer keeps the index below the table length. -/
theorem setHeterodyne_unvalidated :
    (∀ st h1 h2, (setHeterodyne st h1 h2).heterodyne1 = h1 ∧
      (setHeterodyne st h1 h2).heterodyne2 = h2) ∧
    (∀ st h1 h2 b s aok, ((min s 512 : ℕ) : ℤ) < h1 →
      (startAudio st h1 h2 b s aok).1 = false) ∧
    (∃ len step idx : ℤ, 0 ≤ idx ∧ idx < len ∧ len < step ∧
      ¬ advanceIndex idx step len < len) := by
  refine ⟨fun st h1 h2 => ⟨rfl, rfl⟩, ?_, 10, 21, 0, by norm_num, by norm_num,
    by norm_num, by decide⟩
  intro st h1 h2 b s aok hgt
  simp only [startAudio]
  rw [if_pos (Or.inl hgt)]

/-- Witness for `setHeterodyne_unvalidated`: tone step 600 is stored verbatim
by `setHeterodyne` but rejected by `startAudio` for a 384 samples/ms session,
and a step of 21 drives an index of a 10-entry table to 11, outside it. -/
theorem setHeterodyne_unvalidated_witness :
    (setHeterodyne audioState0 600 700).heterodyne1 = 600 ∧
    (startAudio audioState0 600 0 0 384 true).1 = false ∧
    ¬ advanceIndex 0 21 10 < 10 := by
  have h := setHeterodyne_unvalidated
  exact ⟨(h.1 audioState0 600 700).1, h.2.1 audioState0 600 0 0 384 true (by norm_num),
    by decide⟩

/-! ## C6 -/

theorem stageShift_eq_ediv (c m s : ℤ) :
    stageShift c m s = (c * m + (2 ^ 31 - c) * s) / 2 ^ 31 :=
  Int.fdiv_eq_ediv _ (by norm_num)

theorem toInt32_eq_self {z : ℤ} (h1 : -(2 ^ 31) ≤ z) (h2 : z < 2 ^ 31) :
    toInt32 z = z := by
  have e31 : (2 : ℤ) ^ 31 = 2147483648 := by norm_num
  have e32 : (2 : ℤ) ^ 32 = 4294967296 := by norm_num
  have hm : (z + 2 ^ 31) % 2 ^ 32 = z + 2 ^ 31 :=
    Int.emod_eq_of_lt (by omega) (by omega)
  unfold toInt32
  omega

theorem stageShift_range {c x : ℤ} (hc0 : 0 < c) (hc1 : c < 2 ^ 31)
    {m s : ℤ} (hm1 : x ≤ m) (hm2 : m ≤ 0) (hs1 : x ≤ s) (hs2 : s ≤ 0) :
    x ≤ stageShift c m s ∧ stageShift c m s ≤ 0 := by
  rw [stageShift_eq_ediv]
  constructor
  · have hlow : 2 ^ 31 * x ≤ c * m + (2 ^ 31 - c) * s := by
      nlinarith [mul_nonneg (le_of_lt hc0) (sub_nonneg.mpr hm1),
        mul_nonneg (show (0 : ℤ) ≤ 2 ^ 31 - c by omega) (sub_nonneg.mpr hs1)]
    calc x = 2 ^ 31 * x / 2 ^ 31 := (Int.mul_ediv_cancel_left x (by norm_num)).symm
      _ ≤ _ := Int.ediv_le_ediv (by norm_num) hlow
  · have hhigh : c * m + (2 ^ 31 - c) * s ≤ 0 := by
      nlinarith [mul_nonpos_of_nonneg_of_nonpos (le_of_lt hc0) hm2,
        mul_nonpos_of_nonneg_of_nonpos (show (0 : ℤ) ≤ 2 ^ 31 - c by omega) hs2]
    have := Int.ediv_le_ediv (show (0 : ℤ) < 2 ^ 31 by norm_num) hhigh
    simpa using this

theorem stageShift_fixed (c x : ℤ) : stageShift c x x = x := by
  rw [stageShift_eq_ediv,
    show c * x + (2 ^ 31 - c) * x = 2 ^ 31 * x from by ring]
  exact Int.mul_ediv_cancel_left x (by norm_num)

theorem stageShift_sub (c x s : ℤ) :
    stageShift c x s = x + (2 ^ 31 - c) * (s - x) / 2 ^ 31 := by
  rw [stageShift_eq_ediv,
    show c * x + (2 ^ 31 - c) * s = (2 ^ 31 - c) * (s - x) + 2 ^ 31 * x from by ring,
    Int.add_mul_ediv_left _ x (show (2 ^ 31 : ℤ) ≠ 0 by norm_num), add_comm]

theorem stageShift_dec {c x s : ℤ} (hc0 : 0 < c) (hc1 : c < 2 ^ 31)
    (hd : x + 1 ≤ s) : stageShift c x s ≤ s - 1 := by
  rw [stageShift_sub]
  have hlt : (2 ^ 31 - c) * (s - x) < (s - x) * 2 ^ 31 := by
    nlinarith [mul_pos hc0 (show (0 : ℤ) < s - x by omega)]
  have hq := (Int.ediv_lt_iff_lt_mul (show (0 : ℤ) < 2 ^ 31 by norm_num)).mpr hlt
  linarith

theorem stageTraj_range {c x : ℤ} (hc0 : 0 < c) (hc1 : c < 2 ^ 31)
    (hx1 : -(2 ^ 31) ≤ x) {s0 : ℤ} (hs1 : x ≤ s0) (hs2 : s0 ≤ 0) :
    ∀ n, x ≤ stageTraj c x s0 n ∧ stageTraj c x s0 n ≤ 0 := by
  intro n
  induction n with
  | zero => exact ⟨hs1, hs2⟩
  | succ n ih =>
    have hstep := stageShift_range hc0 hc1 (le_refl x) (by omega : x ≤ 0) ih.1 ih.2
    have hcast : toInt32 (stageShift c x (stageTraj c x s0 n))
        = stageShift c x (stageTraj c x s0 n) :=
      toInt32_eq_self (by omega) (by omega)
    show x ≤ toInt32 (stageShift c x (stageTraj c x s0 n)) ∧
        toInt32 (stageShift c x (stageTraj c x s0 n)) ≤ 0
    rw [hcast]
    exact hstep

theorem stageTraj_progress {c x : ℤ} (hc0 : 0 < c) (hc1 : c < 2 ^ 31)
    (hx1 : -(2 ^ 31) ≤ x) {s0 : ℤ} (hs1 : x ≤ s0) (hs2 : s0 ≤ 0) :
    ∀ n : ℕ, stageTraj c x s0 n = x ∨ stageTraj c x s0 n ≤ s0 - n := by
  intro n
  induction n with
  | zero => right; simp [stageTraj]
  | succ n ih =>
    have hr := stageTraj_range hc0 hc1 hx1 hs1 hs2 n
    by_cases hfix : stageTraj c x s0 n = x
    · left
      show toInt32 (stageShift c x (stageTraj c x s0 n)) = x
      rw [hfix, stageShift_fixed]
      exact toInt32_eq_self (by omega) (by omega)
    · have hge : x + 1 ≤ stageTraj c x s0 n := by
        rcases lt_or_eq_of_le hr.1 with h | h
        · omega
        · exact absurd h.symm hfix
      have hdec := stageShift_dec hc0 hc1 hge
      have hstep := stageShift_range hc0 hc1 (le_refl x) (by omega : x ≤ 0) hr.1 hr.2
      have hcast : toInt32 (stageShift c x (stageTraj c x s0 n))
          = stageShift c x (stageTraj c x s0 n) :=
        toInt32_eq_self (by omega) (by omega)
      right
      show toInt32 (stageShift c x (stageTraj c x s0 n)) ≤ s0 - (n + 1 : ℕ)
      rw [hcast]
      rcases ih with h | h
      · exact absurd h hfix
      · push_cast
        omega

theorem stageTraj_settles {c x : ℤ} (hc0 : 0 < c) (hc1 : c < 2 ^ 31)
    (hx1 : -(2 ^ 31) ≤ x) {s0 : ℤ} (hs1 : x ≤ s0) (hs2 : s0 ≤ 0)
    (n : ℕ) (hn : x.natAbs ≤ n) : stageTraj c x s0 n = x := by
  have habs : (x.natAbs : ℤ) = -x := Int.ofNat_natAbs_of_nonpos (by omega)
  rcases stageTraj_progress hc0 hc1 hx1 hs1 hs2 n with h | h
  · exact h
  · have hr := stageTraj_range hc0 hc1 hx1 hs1 hs2 n
    have hcast : (x.natAbs : ℤ) ≤ (n : ℤ) := by exact_mod_cast hn
    omega

theorem aaFrom_cons (c x s0 : ℤ) (rest0 : List ℤ) :
    ∀ n, aaFrom c x (s0 :: rest0) n = stageTraj c x s0 n :: tailTraj c x s0 rest0 n := by
  intro n
  induction n with
  | zero => rfl
  | succ n ih =>
    show cascadeStep c x (aaFrom c x (s0 :: rest0) n) = _
    rw [ih]
    rfl

theorem aaFrom_nil (c x : ℤ) : ∀ n, aaFrom c x [] n = [] := by
  intro n
  induction n with
  | zero => rfl
  | succ n ih =>
    show cascadeStep c x (aaFrom c x [] n) = []
    rw [ih]
    rfl

theorem cascadeStep_length (c : ℤ) :
    ∀ (st : List ℤ) (m : ℤ), (cascadeStep c m st).length = st.length := by
  intro st
  induction st with
  | nil => intro m; rfl
  | cons s rest ih => intro m; simpa [cascadeStep] using ih (stageShift c m s)

theorem tailTraj_length (c x s0 : ℤ) (rest0 : List ℤ) :
    ∀ n, (tailTraj c x s0 rest0 n).length = rest0.length := by
  intro n
  induction n with
  | zero => rfl
  | succ n ih =>
    show (cascadeStep c _ (tailTraj c x s0 rest0 n)).length = _
    rw [cascadeStep_length]
    exact ih

theorem cascadeStep_range {c x : ℤ} (hc0 : 0 < c) (hc1 : c < 2 ^ 31)
    (hx1 : -(2 ^ 31) ≤ x) :
    ∀ (st : List ℤ) (m : ℤ), x ≤ m → m ≤ 0 → (∀ s ∈ st, x ≤ s ∧ s ≤ 0) →
    ∀ s2 ∈ cascadeStep c m st, x ≤ s2 ∧ s2 ≤ 0 := by
  intro st
  induction st with
  | nil => intro m _ _ _ s2 h; simp [cascadeStep] at h
  | cons s rest ih =>
    intro m hm1 hm2 hr s2 h2
    have hs := hr s (by simp)
    have hstep := stageShift_range hc0 hc1 hm1 hm2 hs.1 hs.2
    have hcast : toInt32 (stageShift c m s) = stageShift c m s :=
      toInt32_eq_self (by omega) (by omega)
    rcases (by simpa [cascadeStep] using h2 :
        s2 = toInt32 (stageShift c m s) ∨ s2 ∈ cascadeStep c (stageShift c m s) rest) with
      he | hmem
    · rw [he, hcast]; exact hstep
    · exact ih (stageShift c m s) hstep.1 hstep.2
        (fun s3 h3 => hr s3 (by simp [h3])) s2 hmem

theorem tailTraj_range {c x : ℤ} (hc0 : 0 < c) (hc1 : c < 2 ^ 31)
    (hx1 : -(2 ^ 31) ≤ x) {s0 : ℤ} (hs1 : x ≤ s0) (hs2 : s0 ≤ 0)
    (rest0 : List ℤ) (hr : ∀ s ∈ rest0, x ≤ s ∧ s ≤ 0) :
    ∀ n, ∀ s ∈ tailTraj c x s0 rest0 n, x ≤ s ∧ s ≤ 0 := by
  intro n
  induction n with
  | zero => exact hr
  | succ n ih =>
    have htr := stageTraj_range hc0 hc1 hx1 hs1 hs2 n
    have hstep := stageShift_range hc0 hc1 (le_refl x) (by omega : x ≤ 0) htr.1 htr.2
    intro s hmem
    exact cascadeStep_range hc0 hc1 hx1 (tailTraj c x s0 rest0 n) _
      hstep.1 hstep.2 ih s hmem

theorem tailTraj_shift {c x : ℤ} {s0 : ℤ} (rest0 : List ℤ) (a : ℕ)
    (hset : ∀ t, a ≤ t → stageTraj c x s0 t = x) :
    ∀ u, tailTraj c x s0 rest0 (a + u) = aaFrom c x (tailTraj c x s0 rest0 a) u := by
  intro u
  induction u with
  | zero => rfl
  | succ u ih =>
    have he : a + (u + 1) = (a + u) + 1 := by omega
    rw [he]
    show cascadeStep c (stageShift c x (stageTraj c x s0 (a + u)))
        (tailTraj c x s0 rest0 (a + u)) = _
    rw [hset (a + u) (by omega), stageShift_fixed, ih]
    rfl

theorem aaFrom_settles {c x : ℤ} (hc0 : 0 < c) (hc1 : c < 2 ^ 31) (hx0 : x ≤ 0)
    (hx1 : -(2 ^ 31) ≤ x) :
    ∀ (len : ℕ) (st : List ℤ), st.length = len → (∀ s ∈ st, x ≤ s ∧ s ≤ 0) →
    ∀ n, len * x.natAbs ≤ n → aaFrom c x st n = List.replicate len x := by
  intro len
  induction len with
  | zero =>
    intro st hlen hr n hn
    have : st = [] := List.length_eq_zero.mp hlen
    subst this
    simp [aaFrom_nil]
  | succ len ih =>
    intro st hlen hr n hn
    match st, hlen with
    | s0 :: rest, hlen =>
      have hrlen : rest.length = len := by simpa using hlen
      have hs0 := hr s0 (by simp)
      have hrr : ∀ s ∈ rest, x ≤ s ∧ s ≤ 0 := fun s hs => hr s (by simp [hs])
      have hmul : len * x.natAbs + x.natAbs ≤ n := by
        rw [Nat.succ_mul] at hn
        exact hn
      have hset : ∀ t, x.natAbs ≤ t → stageTraj c x s0 t = x := fun t ht =>
        stageTraj_settles hc0 hc1 hx1 hs0.1 hs0.2 t ht
      have hu : n = x.natAbs + (n - x.natAbs) := by omega
      rw [aaFrom_cons, hset n (by omega)]
      have hshift := tailTraj_shift rest x.natAbs hset (n - x.natAbs)
      have htr := tailTraj_range hc0 hc1 hx1 hs0.1 hs0.2 rest hrr x.natAbs
      have htlen : (tailTraj c x s0 rest x.natAbs).length = len := by
        rw [tailTraj_length]
        exact hrlen
      have hih := ih (tailTraj c x s0 rest x.natAbs) htlen htr (n - x.natAbs) (by omega)
      rw [hu, hshift, hih]
      rfl

/-- Claim C6 (counterexample): the cascade output is claimed to converge to
every constant input value.  For constant input `1` (with coefficient `2^30`,
mid-range in `(0, 2^31)`), the `>> 31` truncation keeps every stage state at
`0` forever: the output sequence is constantly `0` and never converges to
`1`. -/
theorem aaCascade_stuck_below_input : ¬ convergesTo constantOneResponse 1 := by
  have hstep : cascadeStep (2 ^ 30) 1 (List.replicate 4 0) = List.replicate 4 0 := by
    decide
  have hall : ∀ n, aaRun (2 ^ 30) 1 n = List.replicate 4 0 := by
    intro n
    induction n with
    | zero => rfl
    | succ n ih =>
      show cascadeStep (2 ^ 30) 1 (aaRun (2 ^ 30) 1 n) = _
      rw [ih]
      exact hstep
  rintro ⟨N, hN⟩
  have h1 := hN N (le_refl N)
  have h0 : constantOneResponse N = 0 := by
    unfold constantOneResponse aaOutput
    rw [hall N]
    rfl
  omega

/-- Claim C6 (amended): for every constant input value `x ≤ 0` (in the
`int32` range) fed to the fixed-point cascade from the reset state, with any
coefficient in `(0, 2^31)`, the cascade converges exactly to `x`: after at
most `4·|x|` samples every stage state — and hence the cascade output —
equals `x`.  (For positive constant inputs the floor truncation can hold the
output strictly below the input forever, see the counterexample.) -/
theorem aaCascade_converges (c x : ℤ) (hc0 : 0 < c) (hc1 : c < 2 ^ 31)
    (hx0 : x ≤ 0) (hx1 : -(2 ^ 31) ≤ x) (n : ℕ) (hn : 4 * x.natAbs ≤ n) :
    aaRun c x n = List.replicate 4 x ∧ aaOutput c x n = x := by
  have h := aaFrom_settles hc0 hc1 hx0 hx1 4 (List.replicate 4 0) (by simp)
    (by intro s hs; rw [List.eq_of_mem_replicate hs]; exact ⟨hx0, le_refl 0⟩) n hn
  refine ⟨h, ?_⟩
  unfold aaOutput
  rw [show aaRun c x n = List.replicate 4 x from h]
  rfl

/-- Witness for `aaCascade_converges`: coefficient `1`, constant input `-2`,
after `8 = 4·|-2|` samples all four stage states equal `-2`. -/
theorem aaCascade_converges_witness :
    aaRun 1 (-2) 8 = List.replicate 4 (-2) ∧ aaOutput 1 (-2) 8 = -2 :=
  aaCascade_converges 1 (-2) (by norm_num) (by norm_num) (by norm_num)
    (by norm_num) 8 (by norm_num)
